import Mathlib

/-!
Shallow embedding of `numba/np/random/generator_methods.py`: the dispatch and
sampling layer for NumPy `Generator` objects (bounded integers, shuffle,
permutation, and the scalar/array dispatch template shared by the
distribution methods), together with proofs of its specification claims.

The bit generator is modelled as an infinite stream of raw words plus a
cursor; every operation is a pure function of its arguments and that state.
Helper routines that live outside this file's source fragment
(`random_methods.*`, `np.empty` on negative dimensions) are modelled from the
spec and carry a doc comment saying so.
-/

namespace NumbaRandom

/-- A bit generator: an infinite stream `words` of raw unsigned words produced
by the underlying PRNG, plus a cursor `pos` counting how many words have been
consumed.  The core layer only ever reads words in order via `BitGen.next`. -/
structure BitGen where
  words : Nat → Nat
  pos : Nat

/-- Native word width of the raw generator output (`next_uint64`). -/
def wordBits : Nat := 64

/-- Draw the next raw word and advance the cursor. -/
def BitGen.next (g : BitGen) : Nat × BitGen :=
  (g.words g.pos % 2 ^ wordBits, ⟨g.words, g.pos + 1⟩)

/-- Modelled from the spec: the bit-smearing mask computation of
`random_methods` (NumPy-style), producing the smallest `2^k - 1 ≥ rng` for
values below the native word width. -/
def maskFor (rng : Nat) : Nat :=
  let m1 := rng ||| (rng >>> 1)
  let m2 := m1 ||| (m1 >>> 2)
  let m3 := m2 ||| (m2 >>> 4)
  let m4 := m3 ||| (m3 >>> 8)
  let m5 := m4 ||| (m4 >>> 16)
  m5 ||| (m5 >>> 32)

/-- Modelled from the spec: the masked-rejection loop shared by
`random_methods.random_bounded_uint*_fill` and
`random_methods.random_interval`: draw a raw word, mask it down, accept iff
the masked value is `≤ rng`, otherwise redraw.  `fuel` bounds the number of
redraws; `none` models a run that never accepts within the fuel. -/
def boundedDrawAux (mask rng : Nat) : Nat → BitGen → Option (Nat × BitGen)
  | 0, _ => none
  | fuel + 1, g =>
    let wg := g.next
    let v := wg.1 &&& mask
    if v ≤ rng then some (v, wg.2) else boundedDrawAux mask rng fuel wg.2

/-- One accepted bounded draw, uniform on `[0, rng]` (spec §4.4). -/
def boundedDraw (fuel : Nat) (g : BitGen) (rng : Nat) : Option (Nat × BitGen) :=
  boundedDrawAux (maskFor rng) rng fuel g

/-- Cast of an integer value into a fixed-width dtype whose representable
range is `[lb, ub]`: wraparound modulo the range size, landing in `[lb, ub]`.
This models the `dtype(...)` casts of the source on both signed and unsigned
widths (for which `ub - lb + 1 = 2^bits`). -/
def castTo (lb ub x : Int) : Int :=
  (x - lb) % (ub - lb + 1) + lb

/-- Modelled from the spec: `random_methods._randint_arg_check` — the bounds
validation run before any draw.  After endpoint normalization the closed
range `[low, high1]` must be non-empty and lie inside the dtype's
representable range `[lb, ub]`. -/
def randintArgCheck (low high : Int) (endpoint : Bool) (lb ub : Int) : Bool :=
  let high1 := if endpoint then high else high - 1
  decide (lb ≤ low ∧ low ≤ high1 ∧ high1 ≤ ub)

/-- Modelled from the spec: `random_methods.random_bounded_uint{W}_fill` —
fill `size` samples, each `low + v` with `v` an accepted masked draw in
`[0, rng]`, cast to the dtype range `[lb, ub]`. -/
def boundedFill (fuel : Nat) (lb ub low : Int) (rng : Nat) :
    Nat → BitGen → Option (List Int × BitGen)
  | 0, g => some ([], g)
  | n + 1, g =>
    match boundedDraw fuel g rng with
    | none => none
    | some vg =>
      match boundedFill fuel lb ub low rng n vg.2 with
      | none => none
      | some vsg => some (castTo lb ub (low + (vg.1 : Int)) :: vsg.1, vsg.2)

/-- Result of an `integers` call: the scalar path or the array path. -/
inductive IntSample where
  | scalar (v : Int)
  | array (vs : List Int)
deriving DecidableEq

/-- The values carried by an `IntSample`. -/
def IntSample.vals : IntSample → List Int
  | .scalar v => [v]
  | .array vs => vs

/-- Error taxonomy of the embedded operations. -/
inductive RandErr where
  | invalidRange
  | axisOutOfBounds
deriving DecidableEq

/-- Shallow embedding of the `impl` closures of
`NumPyRandomGeneratorType_integers`: validate the bounds, decrement `high`
first when the endpoint is exclusive, cast `low` and the normalized `high`
to the dtype, form `rng = high - low`, then fill.  `size = none` models the
scalar path of the source (a size-1 fill whose element 0 is returned);
`size = some n` models a resolved size of `n` elements.  `.ok none` models a
fuel-exhausted rejection loop (which the real code runs unboundedly). -/
def integersImpl (fuel : Nat) (lb ub low high : Int) (endpoint : Bool)
    (size : Option Nat) (g : BitGen) : Except RandErr (Option (IntSample × BitGen)) :=
  if randintArgCheck low high endpoint lb ub then
    let high1 := if endpoint then high else high - 1
    let lowC := castTo lb ub low
    let highC := castTo lb ub high1
    let rng := (highC - lowC).toNat
    match size with
    | none =>
      match boundedFill fuel lb ub lowC rng 1 g with
      | none => .ok none
      | some vsg => .ok (some (.scalar (vsg.1.headD 0), vsg.2))
    | some n =>
      match boundedFill fuel lb ub lowC rng n g with
      | none => .ok none
      | some vsg => .ok (some (.array vsg.1, vsg.2))
  else .error .invalidRange

/-- Swap of the slices at positions `i` and `j` of the slice list, mirroring
the three copies of the source: `buffer = np.copy(x[j-slot])`;
`x[j-slot] = np.copy(x[i-slot])`; `x[i-slot] = buffer`. -/
def swapSlices (x : List (List Int)) (i j : Nat) : List (List Int) :=
  let buffer := x.getD j []
  let x1 := x.set j (x.getD i [])
  x1.set i buffer

/-- The Fisher-Yates loop of `shuffle`: the argument is the current loop
index `i` (the source iterates `i` from `n - 1` down to `1`); at each index
draw `j` uniformly from `[0, i]` via `random_interval` (the bounded-integer
algorithm), skip when `i = j`, otherwise swap the slices at `i` and `j`. -/
def shuffleGo (fuel : Nat) : Nat → List (List Int) → BitGen → Option (List (List Int) × BitGen)
  | 0, x, g => some (x, g)
  | i + 1, x, g =>
    match boundedDraw fuel g (i + 1) with
    | none => none
    | some jg =>
      if i + 1 = jg.1 then shuffleGo fuel i x jg.2
      else shuffleGo fuel i (swapSlices x (i + 1) jg.1) jg.2

/-- Shallow embedding of the `impl` closure of
`NumPyRandomGeneratorType_shuffle`: `x` is the list of rank-`(r-1)` slices of
the array along the selected axis (so `x.length = shape[axis]`), `ndim` is
the array rank consulted by the guard `axis > x.ndim - 1` of the source.
Note the guard is one-sided exactly as in the source. -/
def shuffleImpl (fuel : Nat) (x : List (List Int)) (axis : Int) (ndim : Nat)
    (g : BitGen) : Except RandErr (Option (List (List Int) × BitGen)) :=
  if axis > (ndim : Int) - 1 then .error .axisOutOfBounds
  else .ok (shuffleGo fuel (x.length - 1) x g)

/-- Reference application of a drawn index sequence to the slice list: `js`
lists the draws for loop indices `i0, i0 - 1, ..., 1`. -/
def applyDraws : Nat → List Nat → List (List Int) → List (List Int)
  | 0, _, x => x
  | _ + 1, [], x => x
  | i + 1, j :: js, x =>
    applyDraws i js (if i + 1 = j then x else swapSlices x (i + 1) j)

/-- A heap of arrays, for the frame-property claims: each array is its list
of slices along the axis used by the call under study. -/
abbrev Store := List (List (List Int))

/-- Look up an array in the store. -/
def storeGet (s : Store) (r : Nat) : List (List Int) :=
  s.getD r []

/-- `np.arange n` as a one-dimensional array: `n` singleton slices. -/
def arangeSlices (n : Nat) : List (List Int) :=
  (List.range n).map (fun k => [(k : Int)])

/-- Shallow embedding of the `impl` closure of
`NumPyRandomGeneratorType_permutation` over an explicit store: the argument
is either an integer count (`.inl n`, handled by the `np.arange` maker) or a
reference `.inr r` to an existing array in the store (handled by the
`x.copy()` maker).  A fresh array is appended to the store, shuffled in place
at its own slot, and its reference is returned; no pre-existing slot is
written. -/
def permFresh (s : Store) : Sum Nat Nat → List (List Int)
  | .inl n => arangeSlices n
  | .inr r => storeGet s r

def permutationImpl (fuel : Nat) (s : Store) (x : Sum Nat Nat) (axis : Int)
    (ndim : Nat) (g : BitGen) : Except RandErr (Option (Store × Nat × BitGen)) :=
  let fresh := permFresh s x
  let r1 := s.length
  let s1 := s ++ [fresh]
  match shuffleImpl fuel (storeGet s1 r1) axis ndim g with
  | .error e => .error e
  | .ok none => .ok none
  | .ok (some xg) => .ok (some (s1.set r1 xg.1, r1, xg.2))

/-- All coordinate tuples of an array of shape `ds`, in row-major
(last-axis-fastest) order: the embedding of `np.ndindex`. -/
def ndindex : List Nat → List (List Nat)
  | [] => [[]]
  | d :: ds => (List.range d).flatMap (fun i => (ndindex ds).map (fun t => i :: t))

/-- An N-dimensional array: its shape and its element buffer in row-major
(C-order) layout. -/
structure NDArray (α : Type) where
  shape : List Nat
  data : List α
deriving DecidableEq

/-- State-threading map of a kernel over a list of coordinates: exactly one
kernel call per coordinate, in list order, mirroring
`for i in np.ndindex(size): out[i] = dist_func(inst.bit_generator)`. -/
def fillGo (kernel : BitGen → α × BitGen) : List (List Nat) → BitGen → List α × BitGen
  | [], g => ([], g)
  | _ :: idxs, g =>
    let vg := kernel g
    let rest := fillGo kernel idxs vg.2
    (vg.1 :: rest.1, rest.2)

/-- Array branch of the dispatch template: allocate shape `ds` and fill it in
row-major coordinate order. -/
def fillArray (ds : List Nat) (kernel : BitGen → α × BitGen) (g : BitGen) :
    NDArray α × BitGen :=
  let vsg := fillGo kernel (ndindex ds) g
  (⟨ds, vsg.1⟩, vsg.2)

/-- `k`-fold advance of the generator by the kernel, outputs discarded. -/
def stepN (kernel : BitGen → α × BitGen) : Nat → BitGen → BitGen
  | 0, g => g
  | n + 1, g => stepN kernel n (kernel g).2

/-- The first `n` outputs of iterating the kernel from state `g`. -/
def streamN (kernel : BitGen → α × BitGen) : Nat → BitGen → List α
  | 0, _ => []
  | n + 1, g => (kernel g).1 :: streamN kernel n (kernel g).2

/-- A resolved `size` argument value: absent, a single integer, or a tuple. -/
inductive SizeVal where
  | noneSize
  | intSize (n : Nat)
  | tupleSize (ds : List Nat)
deriving DecidableEq

/-- The dims `np.empty` receives: an integer `n` becomes `(n,)`, a tuple is
taken as is (the empty tuple giving a rank-0 array), absent size means the
scalar path. -/
def resolveDims : SizeVal → Option (List Nat)
  | .noneSize => none
  | .intSize n => some [n]
  | .tupleSize ds => some ds

/-- Output of a sampling method: a bare scalar or an array. -/
inductive RandOut (α : Type) where
  | scalar (v : α)
  | array (a : NDArray α)
deriving DecidableEq

/-- Shallow embedding of the `impl` closures of
`NumPyRandomGeneratorType_random` — the scalar/array dispatch template shared
by every array-producing sampling method in the source: absent size makes one
kernel call and returns the bare value; otherwise `np.empty(size)` is
allocated and filled in row-major order. -/
def randomImpl (kernel : BitGen → α × BitGen) (size : SizeVal) (g : BitGen) :
    RandOut α × BitGen :=
  match resolveDims size with
  | none =>
    let vg := kernel g
    (.scalar vg.1, vg.2)
  | some ds =>
    let ag := fillArray ds kernel g
    (.array ag.1, ag.2)

/-- The numba typing-time view of an argument, as inspected by `check_size`:
`size` validation in the source is a check on the argument's numba TYPE
(`types.UniTuple`, `types.Tuple`, `types.Integer`), not on its runtime
value. -/
inductive NBType where
  | integerT
  | booleanT
  | floatT
  | uniTupleT (dtype : NBType) (count : Nat)
  | tupleT (elts : List NBType)
  | otherT

/-- Shallow embedding of `check_size`: accept a `UniTuple` whose dtype is
`Integer`, an empty `Tuple`, or an `Integer`; reject everything else.  This
runs at typing time, before any allocation or bit-generator draw. -/
def checkSize : NBType → Bool
  | .uniTupleT dtype _ =>
    match dtype with
    | .integerT => true
    | _ => false
  | .tupleT elts => elts.isEmpty
  | .integerT => true
  | _ => false

/-- Modelled from the spec: `np.empty` (outside this source fragment) rejects
negative dimension values at allocation time — after `check_size` has already
accepted the argument's type. -/
def npEmpty (dims : List Int) : Option (NDArray Int) :=
  if dims.all (fun d => 0 ≤ d) then
    some ⟨dims.map Int.toNat, List.replicate (dims.map Int.toNat).prod 0⟩
  else none

/-- Modelled from the spec: a raw-uniform kernel (`next_double` and friends
live outside this fragment); kernels are pure functions of the generator
state, so one raw word per call is a faithful stand-in for the interpreter
used in the determinism claim. -/
def rawKernel : BitGen → Int × BitGen :=
  fun g =>
    let wg := g.next
    ((wg.1 : Int), wg.2)

/-- One call of the exposed API, for the determinism claim. -/
inductive Call where
  | integersC (fuel : Nat) (lb ub low high : Int) (endpoint : Bool) (size : Option Nat)
  | shuffleC (fuel r : Nat) (axis : Int) (ndim : Nat)
  | permutationC (fuel : Nat) (x : Sum Nat Nat) (axis : Int) (ndim : Nat)
  | randomC (size : SizeVal)

/-- Observable outcome of one call. -/
inductive Event where
  | errE (e : RandErr)
  | exhaustedE
  | intsE (s : IntSample)
  | outE (o : RandOut Int)
  | refE (r : Nat)
  | unitE
deriving DecidableEq

/-- Machine state of the interpreter: the array store plus the bit
generator. -/
abbrev MState := Store × BitGen

/-- One step of the interpreter: dispatch a call against the current state. -/
def step (c : Call) (st : MState) : Event × MState :=
  match c with
  | .integersC fuel lb ub low high endpoint size =>
    match integersImpl fuel lb ub low high endpoint size st.2 with
    | .error e => (.errE e, st)
    | .ok none => (.exhaustedE, st)
    | .ok (some sg) => (.intsE sg.1, (st.1, sg.2))
  | .shuffleC fuel r axis ndim =>
    match shuffleImpl fuel (storeGet st.1 r) axis ndim st.2 with
    | .error e => (.errE e, st)
    | .ok none => (.exhaustedE, st)
    | .ok (some xg) => (.unitE, (st.1.set r xg.1, xg.2))
  | .permutationC fuel x axis ndim =>
    match permutationImpl fuel st.1 x axis ndim st.2 with
    | .error e => (.errE e, st)
    | .ok none => (.exhaustedE, st)
    | .ok (some sg) => (.refE sg.2.1, (sg.1, sg.2.2))
  | .randomC size =>
    let og := randomImpl rawKernel size st.2
    (.outE og.1, (st.1, og.2))

/-- Run a call sequence, collecting the event trace and the final state. -/
def run : List Call → MState → List Event × MState
  | [], st => ([], st)
  | c :: cs, st =>
    let est := step c st
    let rest := run cs est.2
    (est.1 :: rest.1, rest.2)

/-! ## Basic lemmas on the bounded sampler -/

theorem castTo_of_mem {lb ub x : Int} (hl : lb ≤ x) (hu : x ≤ ub) :
    castTo lb ub x = x := by
  unfold castTo
  rw [Int.emod_eq_of_lt (by omega) (by omega)]
  omega

theorem boundedDrawAux_spec (mask rng : Nat) :
    ∀ (fuel : Nat) (g : BitGen) (v : Nat) (g1 : BitGen),
      boundedDrawAux mask rng fuel g = some (v, g1) →
      v ≤ rng ∧ g.pos < g1.pos ∧ g1.words = g.words := by
  intro fuel
  induction fuel with
  | zero =>
    intro g v g1 h
    simp [boundedDrawAux] at h
  | succ n ih =>
    intro g v g1 h
    simp only [boundedDrawAux, BitGen.next] at h
    split at h
    · rcases Option.some.inj h with h2
      cases h2
      exact ⟨by assumption, Nat.lt_succ_self _, rfl⟩
    · rcases ih _ _ _ h with ⟨h1, h2, h3⟩
      exact ⟨h1, Nat.lt_of_succ_lt h2, h3⟩

theorem boundedDraw_spec {fuel : Nat} {g : BitGen} {rng v : Nat} {g1 : BitGen}
    (h : boundedDraw fuel g rng = some (v, g1)) :
    v ≤ rng ∧ g.pos < g1.pos ∧ g1.words = g.words :=
  boundedDrawAux_spec (maskFor rng) rng fuel g v g1 h

theorem boundedFill_spec (fuel : Nat) (lb ub low : Int) (rng : Nat) :
    ∀ (n : Nat) (g : BitGen) (vs : List Int) (g1 : BitGen),
      boundedFill fuel lb ub low rng n g = some (vs, g1) →
      vs.length = n ∧
        ∀ v ∈ vs, ∃ a : Int, 0 ≤ a ∧ a ≤ (rng : Int) ∧ v = castTo lb ub (low + a) := by
  intro n
  induction n with
  | zero =>
    intro g vs g1 h
    simp only [boundedFill] at h
    rcases Option.some.inj h with h2
    cases h2
    exact ⟨rfl, by intro v hv; simp at hv⟩
  | succ m ih =>
    intro g vs g1 h
    simp only [boundedFill] at h
    split at h
    · exact absurd h (by simp)
    · rename_i vg hdraw
      split at h
      · exact absurd h (by simp)
      · rename_i vsg hfill
        rcases Option.some.inj h with h2
        cases h2
        rcases ih vg.2 vsg.1 vsg.2 hfill with ⟨hlen, hmem⟩
        refine ⟨by simp [hlen], ?_⟩
        intro v hv
        rcases List.mem_cons.mp hv with hv | hv
        · subst hv
          rcases boundedDraw_spec hdraw with ⟨hle, -, -⟩
          exact ⟨(vg.1 : Int), by positivity, by exact_mod_cast hle, rfl⟩
        · exact hmem v hv

theorem headD_mem_of_length_pos {vs : List Int} (h : vs.length = 1) :
    vs.headD 0 ∈ vs := by
  cases vs with
  | nil => simp at h
  | cons a t => simp

/-- C1: for every `integers` call that passes validation, the range is
normalized to `rng = high - low` (endpoint inclusive) or
`rng = (high - 1) - low` (endpoint exclusive, the upper bound decremented by
one unit first), and every returned sample is `low` plus an accepted value
in `[0, rng]`, hence lies in `[low, high]` when inclusive and in
`[low, high - 1]` when exclusive. -/
theorem integers_range_and_normalization
    (fuel : Nat) (lb ub low high : Int) (endpoint : Bool) (size : Option Nat)
    (g : BitGen) (res : IntSample) (g1 : BitGen)
    (hck : randintArgCheck low high endpoint lb ub = true)
    (hrun : integersImpl fuel lb ub low high endpoint size g = .ok (some (res, g1))) :
    ∀ v ∈ res.vals, ∃ a : Int, 0 ≤ a ∧
      a ≤ (if endpoint then high - low else high - 1 - low) ∧
      v = low + a ∧
      low ≤ v ∧ v ≤ (if endpoint then high else high - 1) := by
  have hck1 : lb ≤ low ∧ low ≤ (if endpoint then high else high - 1) ∧
      (if endpoint then high else high - 1) ≤ ub := by
    have h2 := of_decide_eq_true hck
    exact h2
  rcases hck1 with ⟨hlb, hlh, hub⟩
  have hlowC : castTo lb ub low = low :=
    castTo_of_mem hlb (le_trans hlh hub)
  have hhighC : castTo lb ub (if endpoint then high else high - 1)
      = (if endpoint then high else high - 1) :=
    castTo_of_mem (le_trans hlb hlh) hub
  have hrng : (((if endpoint then high else high - 1) - low).toNat : Int)
      = (if endpoint then high else high - 1) - low := by
    rw [Int.toNat_of_nonneg (by omega)]
  have main : ∀ vs : List Int,
      (∀ v ∈ vs, ∃ a : Int, 0 ≤ a ∧
        a ≤ ((((if endpoint then high else high - 1) - low).toNat : Nat) : Int) ∧
        v = castTo lb ub (low + a)) →
      ∀ v ∈ vs, ∃ a : Int, 0 ≤ a ∧
        a ≤ (if endpoint then high - low else high - 1 - low) ∧
        v = low + a ∧ low ≤ v ∧ v ≤ (if endpoint then high else high - 1) := by
    intro vs hvs v hv
    rcases hvs v hv with ⟨a, ha0, har, hav⟩
    have har2 : a ≤ (if endpoint then high else high - 1) - low := by
      rw [hrng] at har; exact har
    have hvcast : castTo lb ub (low + a) = low + a :=
      castTo_of_mem (by omega) (by omega)
    refine ⟨a, ha0, ?_, by rw [hav, hvcast], by omega, by omega⟩
    cases endpoint <;> simp_all
  cases size with
  | none =>
    simp only [integersImpl, hck, if_true, hlowC, hhighC] at hrun
    split at hrun
    · exact absurd hrun (by simp)
    · rename_i vsg hfill
      rcases hrun with ⟨h2⟩
      rcases boundedFill_spec fuel lb ub low _ 1 g vsg.1 vsg.2 hfill with ⟨hlen, hmem⟩
      intro v hv
      have hv1 : v = vsg.1.headD 0 := by
        simpa [IntSample.vals] using hv
      exact main vsg.1 hmem v (hv1 ▸ headD_mem_of_length_pos hlen)
  | some n =>
    simp only [integersImpl, hck, if_true, hlowC, hhighC] at hrun
    split at hrun
    · exact absurd hrun (by simp)
    · rename_i vsg hfill
      rcases hrun with ⟨h2⟩
      rcases boundedFill_spec fuel lb ub low _ n g vsg.1 vsg.2 hfill with ⟨-, hmem⟩
      intro v hv
      exact main vsg.1 hmem v (by simpa [IntSample.vals] using hv)

/-- Witness for C1 at a concrete call: `integers(0, 5, size=3, endpoint=False)`
with raw words `0, 1, 2` returns samples `0, 1, 2`; the sample `1` is `0 + 1`
with `1` an accepted value in `[0, 4]`. -/
theorem integers_range_and_normalization_witness :
    ∃ a : Int, 0 ≤ a ∧ a ≤ 5 - 1 - 0 ∧ (1 : Int) = 0 + a ∧
      (0 : Int) ≤ 1 ∧ (1 : Int) ≤ 5 - 1 := by
  have hrun : integersImpl 2 (-128) 127 0 5 false (some 3) ⟨fun n => n, 0⟩
      = .ok (some (.array [0, 1, 2], ⟨fun n => n, 3⟩)) := rfl
  exact integers_range_and_normalization 2 (-128) 127 0 5 false (some 3)
    ⟨fun n => n, 0⟩ (.array [0, 1, 2]) ⟨fun n => n, 3⟩ (by decide) hrun 1 (by decide)

theorem boundedFill_one {fuel : Nat} {lb ub low : Int} {rng : Nat} {g : BitGen}
    {vs : List Int} {g1 : BitGen}
    (h : boundedFill fuel lb ub low rng 1 g = some (vs, g1)) :
    ∃ x, vs = [x] := by
  have hlen := (boundedFill_spec fuel lb ub low rng 1 g vs g1 h).1
  cases vs with
  | nil => simp at hlen
  | cons a t =>
    cases t with
    | nil => exact ⟨a, rfl⟩
    | cons b t2 => simp at hlen

/-- C10: `integers` with absent size is the size-1 array fill with its first
element extracted — it returns exactly the single element of the length-1
array the `size = 1` call would return from the same generator state, and
both calls leave the generator in the identical final state (same number of
draws). -/
theorem integers_scalar_refines_size1
    (fuel : Nat) (lb ub low high : Int) (endpoint : Bool) (g : BitGen)
    (v : Int) (g1 : BitGen) :
    integersImpl fuel lb ub low high endpoint none g
      = .ok (some (.scalar v, g1)) ↔
    integersImpl fuel lb ub low high endpoint (some 1) g
      = .ok (some (.array [v], g1)) := by
  by_cases hck : randintArgCheck low high endpoint lb ub = true
  · constructor
    · intro h
      simp only [integersImpl, hck, if_true] at h ⊢
      split at h
      · exact absurd h (by simp)
      · rename_i vsg hfill
        rcases boundedFill_one hfill with ⟨x, hx⟩
        simp only [Except.ok.injEq, Option.some.injEq, Prod.mk.injEq,
          IntSample.scalar.injEq, IntSample.array.injEq] at h ⊢
        rcases h with ⟨hv, hg⟩
        rw [hx] at hv ⊢
        simp only [List.headD_cons] at hv
        exact ⟨by rw [hv], hg⟩
    · intro h
      simp only [integersImpl, hck, if_true] at h ⊢
      split at h
      · exact absurd h (by simp)
      · rename_i vsg hfill
        rcases boundedFill_one hfill with ⟨x, hx⟩
        simp only [Except.ok.injEq, Option.some.injEq, Prod.mk.injEq,
          IntSample.scalar.injEq, IntSample.array.injEq] at h ⊢
        rcases h with ⟨hv, hg⟩
        rw [hx] at hv ⊢
        simp only [List.cons.injEq, and_true] at hv
        simp only [List.headD_cons]
        exact ⟨hv, hg⟩
  · simp only [integersImpl, hck, if_false]
    constructor <;> intro h <;> exact absurd h (by simp)

/-- Witness for C10 at a concrete call: from the word stream `0, 1, 2, ...`
the scalar call returns `0` ending at cursor 1 iff the `size = 1` call
returns `[0]` ending at cursor 1 (both hold here by computation). -/
theorem integers_scalar_refines_size1_witness :
    integersImpl 2 (-128) 127 0 5 false none ⟨fun n => n, 0⟩
      = .ok (some (.scalar 0, ⟨fun n => n, 1⟩)) ↔
    integersImpl 2 (-128) 127 0 5 false (some 1) ⟨fun n => n, 0⟩
      = .ok (some (.array [0], ⟨fun n => n, 1⟩)) :=
  integers_scalar_refines_size1 2 (-128) 127 0 5 false ⟨fun n => n, 0⟩ 0
    ⟨fun n => n, 1⟩

/-! ## Lemmas on the shuffle engine -/

theorem headSwap_perm {α : Type} (a : α) :
    ∀ (t : List α) (m : Nat) (hm : m < t.length),
      List.Perm (t[m] :: t.set m a) (a :: t) := by
  intro t
  induction t with
  | nil =>
    intro m hm
    simp at hm
  | cons b t2 ih =>
    intro m hm
    cases m with
    | zero =>
      simpa using List.Perm.swap a b t2
    | succ k =>
      have hk : k < t2.length := by simpa using hm
      have h1 : List.Perm (t2[k] :: b :: t2.set k a) (b :: t2[k] :: t2.set k a) :=
        List.Perm.swap b t2[k] (t2.set k a)
      have h3 : List.Perm (b :: t2[k] :: t2.set k a) (b :: a :: t2) :=
        (ih k hk).cons b
      have h4 : List.Perm (b :: a :: t2) (a :: b :: t2) := List.Perm.swap a b t2
      simpa using (h1.trans h3).trans h4

theorem set_swap_perm {α : Type} :
    ∀ (l : List α) (i j : Nat) (hi : i < l.length) (hj : j < l.length),
      List.Perm ((l.set j l[i]).set i l[j]) l := by
  intro l
  induction l with
  | nil =>
    intro i j hi hj
    simp at hi
  | cons a t ih =>
    intro i j hi hj
    cases i with
    | zero =>
      cases j with
      | zero => simp
      | succ m =>
        have hm : m < t.length := by simpa using hj
        simpa using headSwap_perm a t m hm
    | succ m =>
      cases j with
      | zero =>
        have hm : m < t.length := by simpa using hi
        simpa using headSwap_perm a t m hm
      | succ k =>
        have hm : m < t.length := by simpa using hi
        have hk : k < t.length := by simpa using hj
        simpa using (ih m k hm hk).cons a

theorem swapSlices_length (x : List (List Int)) (i j : Nat) :
    (swapSlices x i j).length = x.length := by
  simp [swapSlices]

theorem swapSlices_perm (x : List (List Int)) (i j : Nat)
    (hi : i < x.length) (hj : j < x.length) :
    List.Perm (swapSlices x i j) x := by
  show List.Perm ((x.set j (x.getD i [])).set i (x.getD j [])) x
  rw [List.getD_eq_getElem x [] hi, List.getD_eq_getElem x [] hj]
  exact set_swap_perm x i j hi hj

theorem shuffleGo_perm (fuel : Nat) :
    ∀ (i : Nat) (x : List (List Int)) (g : BitGen) (x1 : List (List Int)) (g1 : BitGen),
      i < x.length → shuffleGo fuel i x g = some (x1, g1) → List.Perm x1 x := by
  intro i
  induction i with
  | zero =>
    intro x g x1 g1 hi h
    simp only [shuffleGo] at h
    rcases Option.some.inj h with h2
    cases h2
    exact List.Perm.refl x
  | succ m ih =>
    intro x g x1 g1 hi h
    simp only [shuffleGo] at h
    split at h
    · exact absurd h (by simp)
    · rename_i jg hdraw
      rcases boundedDraw_spec hdraw with ⟨hj, -, -⟩
      split at h
      · exact ih x jg.2 x1 g1 (Nat.lt_of_succ_lt hi) h
      · have hlt : m < (swapSlices x (m + 1) jg.1).length := by
          rw [swapSlices_length]
          exact Nat.lt_of_succ_lt hi
        have hperm := ih (swapSlices x (m + 1) jg.1) jg.2 x1 g1 hlt h
        exact hperm.trans (swapSlices_perm x (m + 1) jg.1 hi (lt_of_le_of_lt hj hi))

theorem shuffleImpl_perm {fuel : Nat} {x x1 : List (List Int)} {axis : Int}
    {ndim : Nat} {g g1 : BitGen}
    (h : shuffleImpl fuel x axis ndim g = .ok (some (x1, g1))) :
    List.Perm x1 x := by
  unfold shuffleImpl at h
  split at h
  · exact absurd h (by simp)
  · rcases Except.ok.inj h with h2
    cases x with
    | nil =>
      simp only [List.length_nil, Nat.zero_sub, shuffleGo] at h2
      rcases Option.some.inj h2 with h3
      cases h3
      exact List.Perm.refl []
    | cons a t =>
      have hlen : (a :: t).length - 1 < (a :: t).length := by simp
      exact shuffleGo_perm fuel ((a :: t).length - 1) (a :: t) g x1 g1 hlen h2

/-- C2 counterexample: `shuffle` with the negative axis `-1` on a rank-2
array is NOT rejected — the source guard `axis > x.ndim - 1` does not fire
for negative axis values, so the call proceeds instead of failing with the
axis error. -/
theorem shuffle_negative_axis_accepted :
    shuffleImpl 1 [[5]] (-1) 2 ⟨fun _ => 0, 0⟩
      = .ok (some ([[5]], ⟨fun _ => 0, 0⟩)) := rfl

/-- C2 (amended): `shuffle` fails with the axis error exactly when
`axis > ndim - 1` (that is, `axis ≥ rank`), and that failure happens before
any bit-generator draw (the machine state, generator included, is returned
untouched); an axis `≤ ndim - 1` — including every negative axis — is never
rejected by the check. -/
theorem shuffle_axis_check (fuel r : Nat) (axis : Int) (ndim : Nat) (st : MState) :
    (axis > (ndim : Int) - 1 →
      shuffleImpl fuel (storeGet st.1 r) axis ndim st.2 = .error .axisOutOfBounds ∧
      step (.shuffleC fuel r axis ndim) st = (.errE .axisOutOfBounds, st)) ∧
    (axis ≤ (ndim : Int) - 1 →
      ∃ res, shuffleImpl fuel (storeGet st.1 r) axis ndim st.2 = .ok res) := by
  constructor
  · intro hgt
    have himpl : shuffleImpl fuel (storeGet st.1 r) axis ndim st.2
        = .error .axisOutOfBounds := by
      unfold shuffleImpl
      rw [if_pos hgt]
    refine ⟨himpl, ?_⟩
    simp [step, himpl]
  · intro hle
    refine ⟨shuffleGo fuel ((storeGet st.1 r).length - 1) (storeGet st.1 r) st.2, ?_⟩
    unfold shuffleImpl
    rw [if_neg (not_lt.mpr hle)]

/-- Witness for C2's amended statement: axis 3 on a rank-2 array fails with
the axis error and leaves the machine state untouched. -/
theorem shuffle_axis_check_witness :
    shuffleImpl 1 (storeGet [[[5]]] 0) 3 2 ⟨fun _ => 0, 0⟩ = .error .axisOutOfBounds ∧
    step (.shuffleC 1 0 3 2) ([[[5]]], ⟨fun _ => 0, 0⟩)
      = (.errE .axisOutOfBounds, ([[[5]]], ⟨fun _ => 0, 0⟩)) :=
  (shuffle_axis_check 1 0 3 2 ([[[5]]], ⟨fun _ => 0, 0⟩)).1 (by decide)

/-- C3: the shuffle loop runs the index `i` from `n - 1` down to `1` and
draws exactly one bounded integer `j ∈ [0, i]` per iteration (the draw list
`js` has exactly one entry per index, entry `k` bounded by `i - k`); the
result is the corresponding sequence of slice swaps (`applyDraws`, whose
step is the single-scratch-buffer `swapSlices`, skipping when `i = j`), and
the generator cursor advances by at least one word per iteration — the draw
is consumed even on skipped (no-op) iterations. -/
theorem shuffle_loop_draws (fuel : Nat) :
    ∀ (i : Nat) (x : List (List Int)) (g : BitGen) (x1 : List (List Int)) (g1 : BitGen),
      shuffleGo fuel i x g = some (x1, g1) →
      ∃ js : List Nat, js.length = i ∧
        (∀ k : Fin js.length, js.get k ≤ i - (k : Nat)) ∧
        x1 = applyDraws i js x ∧
        g.pos + i ≤ g1.pos ∧ g1.words = g.words := by
  intro i
  induction i with
  | zero =>
    intro x g x1 g1 h
    simp only [shuffleGo] at h
    rcases Option.some.inj h with h2
    cases h2
    refine ⟨[], rfl, ?_, rfl, by omega, rfl⟩
    intro k
    exact absurd k.isLt (by simp)
  | succ m ih =>
    intro x g x1 g1 h
    simp only [shuffleGo] at h
    split at h
    · exact absurd h (by simp)
    · rename_i jg hdraw
      rcases boundedDraw_spec hdraw with ⟨hj, hpos, hwords⟩
      split at h
      · rename_i heq
        rcases ih x jg.2 x1 g1 h with ⟨js, hlen, hbound, happ, hpos2, hw2⟩
        refine ⟨jg.1 :: js, by simp [hlen], ?_, ?_, by omega, by rw [hw2, hwords]⟩
        · intro k
          match k with
          | ⟨0, _⟩ => simpa using hj
          | ⟨k + 1, hk⟩ =>
            have hb := hbound ⟨k, by simpa using hk⟩
            simp only [List.get_cons_succ]
            calc js.get ⟨k, by simpa using hk⟩ ≤ m - k := by simpa [hlen] using hb
            _ ≤ m + 1 - (k + 1) := by omega
        · rw [happ]
          show applyDraws m js x = applyDraws m js (if m + 1 = jg.1 then x else _)
          rw [if_pos heq]
      · rename_i hne
        rcases ih (swapSlices x (m + 1) jg.1) jg.2 x1 g1 h with
          ⟨js, hlen, hbound, happ, hpos2, hw2⟩
        refine ⟨jg.1 :: js, by simp [hlen], ?_, ?_, by omega, by rw [hw2, hwords]⟩
        · intro k
          match k with
          | ⟨0, _⟩ => simpa using hj
          | ⟨k + 1, hk⟩ =>
            have hb := hbound ⟨k, by simpa using hk⟩
            simp only [List.get_cons_succ]
            calc js.get ⟨k, by simpa using hk⟩ ≤ m - k := by simpa [hlen] using hb
            _ ≤ m + 1 - (k + 1) := by omega
        · rw [happ]
          show applyDraws m js _ = applyDraws m js (if m + 1 = jg.1 then x else _)
          rw [if_neg hne]

/-- Witness for C3: shuffling 4 slices from the word stream `0, 1, 2, ...`
consumes exactly 3 draws and produces the swap sequence giving
`[[3],[4],[2],[1]]`. -/
theorem shuffle_loop_draws_witness :
    ∃ js : List Nat, js.length = 3 ∧
      (∀ k : Fin js.length, js.get k ≤ 3 - (k : Nat)) ∧
      ([[3], [4], [2], [1]] : List (List Int))
        = applyDraws 3 js [[1], [2], [3], [4]] ∧
      (⟨fun n => n, 0⟩ : BitGen).pos + 3 ≤ (⟨fun n => n, 3⟩ : BitGen).pos ∧
      (⟨fun n => n, 3⟩ : BitGen).words = (⟨fun n => n, 0⟩ : BitGen).words := by
  have h : shuffleGo 2 3 [[1], [2], [3], [4]] ⟨fun n => n, 0⟩
      = some ([[3], [4], [2], [1]], ⟨fun n => n, 3⟩) := rfl
  exact shuffle_loop_draws 2 3 [[1], [2], [3], [4]] ⟨fun n => n, 0⟩
    [[3], [4], [2], [1]] ⟨fun n => n, 3⟩ h

/-- C4: a successful shuffle permutes the slices along the selected axis as
whole blocks — the multiset of slices is unchanged, and therefore the
multiset of all elements is unchanged (values are only reordered, never
altered). -/
theorem shuffle_multiset_preserved (fuel : Nat) (x x1 : List (List Int))
    (axis : Int) (ndim : Nat) (g g1 : BitGen)
    (h : shuffleImpl fuel x axis ndim g = .ok (some (x1, g1))) :
    ((x1 : Multiset (List Int)) = (x : Multiset (List Int))) ∧
    ((x1.flatten : Multiset Int) = (x.flatten : Multiset Int)) := by
  have hperm := shuffleImpl_perm h
  exact ⟨Multiset.coe_eq_coe.mpr hperm, Multiset.coe_eq_coe.mpr hperm.flatten⟩

/-- Witness for C4 at a concrete shuffle of 4 slices. -/
theorem shuffle_multiset_preserved_witness :
    ((([[3], [4], [2], [1]] : List (List Int)) : Multiset (List Int))
      = (([[1], [2], [3], [4]] : List (List Int)) : Multiset (List Int))) ∧
    ((([[3], [4], [2], [1]] : List (List Int)).flatten : Multiset Int)
      = (([[1], [2], [3], [4]] : List (List Int)).flatten : Multiset Int)) := by
  have h : shuffleImpl 2 [[1], [2], [3], [4]] 0 1 ⟨fun n => n, 0⟩
      = .ok (some ([[3], [4], [2], [1]], ⟨fun n => n, 3⟩)) := rfl
  exact shuffle_multiset_preserved 2 [[1], [2], [3], [4]] [[3], [4], [2], [1]]
    0 1 ⟨fun n => n, 0⟩ ⟨fun n => n, 3⟩ h

/-! ## Permutation: frame property -/

theorem storeGet_append_self (s : Store) (a : List (List Int)) :
    storeGet (s ++ [a]) s.length = a := by
  unfold storeGet
  rw [List.getD_eq_getElem?_getD, List.getElem?_concat_length]
  rfl

/-- C8: `permutation` never mutates its argument: it builds a fresh array
(`np.arange n` for an integer argument, a full copy for an array argument),
appends it to the store, shuffles only that fresh slot, and returns its
reference; every pre-existing slot of the store — in particular the argument
array — is bit-identical after the call, and the returned array is a
permutation of the fresh base. -/
theorem permutation_frame (fuel : Nat) (s : Store) (x : Sum Nat Nat) (axis : Int)
    (ndim : Nat) (g : BitGen) (s1 : Store) (r1 : Nat) (g1 : BitGen)
    (h : permutationImpl fuel s x axis ndim g = .ok (some (s1, r1, g1))) :
    (∀ k, k < s.length → storeGet s1 k = storeGet s k) ∧
    r1 = s.length ∧
    ((storeGet s1 r1 : Multiset (List Int))
      = (permFresh s x : Multiset (List Int))) := by
  simp only [permutationImpl] at h
  split at h
  · exact absurd h (by simp)
  · exact absurd h (by simp)
  · rename_i xg hshuf
    rcases Except.ok.inj h with h2
    rcases Option.some.inj h2 with h3
    have hs1 : s1 = (s ++ [permFresh s x]).set s.length xg.1 :=
      congrArg Prod.fst h3.symm
    have hr1 : r1 = s.length := congrArg (fun p => p.2.1) h3.symm
    refine ⟨?_, hr1, ?_⟩
    · intro k hk
      rw [hs1]
      unfold storeGet
      rw [List.getD_eq_getElem?_getD, List.getD_eq_getElem?_getD,
        List.getElem?_set_ne (by omega), List.getElem?_append, if_pos hk]
    · have hget : storeGet s1 r1 = xg.1 := by
        rw [hs1, hr1]
        unfold storeGet
        rw [List.getD_eq_getElem?_getD, List.getElem?_set_self (by simp)]
        rfl
      rw [hget]
      have hfresh := storeGet_append_self s (permFresh s x)
      have hperm : List.Perm xg.1 (storeGet (s ++ [permFresh s x]) s.length) :=
        shuffleImpl_perm hshuf
      rw [hfresh] at hperm
      exact Multiset.coe_eq_coe.mpr hperm

/-- Witness for C8: permuting the array stored at slot 0 leaves slot 0
untouched and returns slot 1 holding a permutation of it. -/
theorem permutation_frame_witness :
    (∀ k, k < ([[[7]]] : Store).length →
      storeGet [[[7]], [[7]]] k = storeGet [[[7]]] k) ∧
    (1 : Nat) = ([[[7]]] : Store).length ∧
    ((storeGet [[[7]], [[7]]] 1 : Multiset (List Int))
      = (permFresh [[[7]]] (.inr 0) : Multiset (List Int))) := by
  have h : permutationImpl 2 [[[7]]] (.inr 0) 0 1 ⟨fun n => n, 0⟩
      = .ok (some ([[[7]], [[7]]], 1, ⟨fun n => n, 0⟩)) := rfl
  exact permutation_frame 2 [[[7]]] (.inr 0) 0 1 ⟨fun n => n, 0⟩
    [[[7]], [[7]]] 1 ⟨fun n => n, 0⟩ h

/-! ## Output shaper: shape law and row-major fill -/

theorem fillGo_eq {α : Type} (kernel : BitGen → α × BitGen) :
    ∀ (idxs : List (List Nat)) (g : BitGen),
      fillGo kernel idxs g
        = (streamN kernel idxs.length g, stepN kernel idxs.length g) := by
  intro idxs
  induction idxs with
  | nil =>
    intro g
    rfl
  | cons c idxs ih =>
    intro g
    simp only [fillGo, List.length_cons, streamN, stepN, ih (kernel g).2]

theorem ndindex_length : ∀ ds : List Nat, (ndindex ds).length = ds.prod := by
  intro ds
  induction ds with
  | nil => rfl
  | cons d ds ih =>
    simp only [ndindex, List.length_flatMap, List.prod_cons]
    have hconst : List.map (List.length ∘ fun i => (ndindex ds).map (fun t => i :: t))
        (List.range d) = List.replicate d (ndindex ds).length := by
      rw [show (List.length ∘ fun i => (ndindex ds).map (fun t => i :: t))
          = Function.const Nat (ndindex ds).length from ?_]
      · rw [List.map_const, List.length_range]
      · funext i
        simp [Function.const]
    rw [hconst, List.sum_const_nat, ih]

theorem ndindex_mem : ∀ (ds : List Nat) (c : List Nat),
    c ∈ ndindex ds ↔ List.Forall₂ (fun a d => a < d) c ds := by
  intro ds
  induction ds with
  | nil =>
    intro c
    simp [ndindex, List.forall₂_nil_right_iff]
  | cons d ds ih =>
    intro c
    simp only [ndindex, List.mem_flatMap, List.mem_range, List.mem_map,
      List.forall₂_cons_right_iff]
    constructor
    · rintro ⟨i, hi, t, ht, rfl⟩
      exact ⟨i, t, hi, (ih t).mp ht, rfl⟩
    · rintro ⟨a, t, ha, ht, rfl⟩
      exact ⟨a, ha, t, (ih t).mpr ht, rfl⟩

theorem ndindex_nodup : ∀ ds : List Nat, (ndindex ds).Nodup := by
  intro ds
  induction ds with
  | nil => simp [ndindex]
  | cons d ds ih =>
    simp only [ndindex]
    rw [List.nodup_flatMap]
    constructor
    · intro i hi
      exact ih.map (fun t1 t2 h => by simpa using h)
    · have hr := List.pairwise_lt_range d
      refine hr.imp ?_
      intro i1 i2 hlt
      intro c hc1 hc2
      rcases List.mem_map.mp hc1 with ⟨t1, ht1, rfl⟩
      rcases List.mem_map.mp hc2 with ⟨t2, ht2, heq⟩
      have : i1 = i2 := by
        have h2 := (List.cons.injEq i1 t1 i2 t2).mp heq.symm
        exact h2.1
      omega

theorem ndindex_sorted : ∀ ds : List Nat,
    List.Pairwise (fun c1 c2 => List.Lex (fun a b => a < b) c1 c2) (ndindex ds) := by
  intro ds
  induction ds with
  | nil => simp [ndindex]
  | cons d ds ih =>
    simp only [ndindex]
    rw [List.pairwise_flatMap]
    constructor
    · intro i hi
      rw [List.pairwise_map]
      exact ih.imp (fun h => List.Lex.cons h)
    · have hr := List.pairwise_lt_range d
      refine hr.imp ?_
      intro i1 i2 hlt
      intro c1 hc1 c2 hc2
      rcases List.mem_map.mp hc1 with ⟨t1, ht1, rfl⟩
      rcases List.mem_map.mp hc2 with ⟨t2, ht2, rfl⟩
      exact List.Lex.rel hlt

/-- C5: the shape law of the dispatch template — an integer size `n` yields
an array of shape `(n,)` with `n` elements, a tuple size yields exactly that
tuple as the shape (the empty tuple giving a rank-0 array holding one
element), and an absent size yields a bare scalar, not an array. -/
theorem random_shape_law {α : Type} (kernel : BitGen → α × BitGen) (g : BitGen) :
    (∀ n : Nat, ∃ a : NDArray α, (randomImpl kernel (.intSize n) g).1 = .array a ∧
      a.shape = [n] ∧ a.data.length = n) ∧
    (∀ ds : List Nat, ∃ a : NDArray α, (randomImpl kernel (.tupleSize ds) g).1 = .array a ∧
      a.shape = ds ∧ a.data.length = ds.prod) ∧
    (∃ a : NDArray α, (randomImpl kernel (.tupleSize []) g).1 = .array a ∧
      a.shape = [] ∧ a.data.length = 1) ∧
    (∃ v : α, (randomImpl kernel .noneSize g).1 = .scalar v) := by
  have harr : ∀ ds : List Nat, ∃ a : NDArray α,
      (randomImpl kernel (.tupleSize ds) g).1 = .array a ∧
      a.shape = ds ∧ a.data.length = ds.prod := by
    intro ds
    refine ⟨(fillArray ds kernel g).1, rfl, rfl, ?_⟩
    show (fillGo kernel (ndindex ds) g).1.length = ds.prod
    rw [fillGo_eq kernel (ndindex ds) g]
    show (streamN kernel (ndindex ds).length g).length = ds.prod
    rw [ndindex_length ds]
    induction ds.prod generalizing g with
    | zero => rfl
    | succ m ih => simpa [streamN] using ih (kernel g).2
  refine ⟨?_, harr, ?_, ⟨(kernel g).1, rfl⟩⟩
  · intro n
    have h := harr [n]
    simpa using h
  · have h := harr []
    simpa using h

/-- C6: the array fill makes exactly one kernel call per coordinate tuple:
the data is the kernel output stream of length `ds.prod` and the generator
is advanced by exactly `ds.prod` sequential kernel steps; the coordinate
list `ndindex ds` visited by the loop has length `ds.prod`, contains every
in-bounds coordinate tuple exactly once (no duplicates), and is strictly
increasing in lexicographic order — i.e. row-major, last axis fastest. -/
theorem fill_row_major {α : Type} (ds : List Nat) (kernel : BitGen → α × BitGen)
    (g : BitGen) :
    fillArray ds kernel g
      = (⟨ds, streamN kernel ds.prod g⟩, stepN kernel ds.prod g) ∧
    (ndindex ds).length = ds.prod ∧
    (ndindex ds).Nodup ∧
    (∀ c : List Nat, c ∈ ndindex ds ↔ List.Forall₂ (fun a d => a < d) c ds) ∧
    List.Pairwise (fun c1 c2 => List.Lex (fun a b => a < b) c1 c2) (ndindex ds) := by
  refine ⟨?_, ndindex_length ds, ndindex_nodup ds, ndindex_mem ds, ndindex_sorted ds⟩
  show (let vsg := fillGo kernel (ndindex ds) g; ((⟨ds, vsg.1⟩ : NDArray α), vsg.2))
      = (⟨ds, streamN kernel ds.prod g⟩, stepN kernel ds.prod g)
  rw [fillGo_eq kernel (ndindex ds) g, ndindex_length ds]

/-! ## Determinism and size validation -/

/-- C9: determinism — the whole exposed API is embedded as pure functions of
the call arguments and the machine state (array store plus bit-generator
word stream and cursor); there is no other input.  Hence two runs from
identical bit-generator states issuing identical call sequences produce
bit-for-bit identical event traces (every scalar, array, reference and
error) and identical final states. -/
theorem run_deterministic (cs1 cs2 : List Call) (st1 st2 : MState)
    (hc : cs1 = cs2) (hs : st1 = st2) :
    run cs1 st1 = run cs2 st2 := by
  subst hc
  subst hs
  rfl

/-- Witness for C9: a concrete 4-call sequence (integers, random,
permutation, shuffle) replayed from the same seed gives the identical
trace. -/
theorem run_deterministic_witness :
    run [.integersC 2 (-128) 127 0 5 false (some 2), .randomC (.intSize 2),
      .permutationC 2 (.inl 3) 0 1, .shuffleC 2 0 0 1]
      ([], ⟨fun n => n, 0⟩)
    = run [.integersC 2 (-128) 127 0 5 false (some 2), .randomC (.intSize 2),
      .permutationC 2 (.inl 3) 0 1, .shuffleC 2 0 0 1]
      ([], ⟨fun n => n, 0⟩) :=
  run_deterministic _ _ _ _ rfl rfl

/-- C7 counterexample: size validation (`check_size`) is a typing-time check
on the numba TYPE of the argument and cannot see runtime values: the type of
a tuple of integers passes it whatever (possibly negative) values the tuple
holds, and the type of any integer — including `-3` — passes it too.  The
rejection of a negative dimension value happens only later, at allocation
(`np.empty`, modelled from the spec), contradicting the claim that a
negative size fails with the shape error at validation time. -/
theorem size_validation_type_only :
    checkSize (.uniTupleT .integerT 1) = true ∧
    checkSize .integerT = true ∧
    npEmpty [-3] = none := by
  exact ⟨rfl, rfl, rfl⟩

/-- C7 (amended): `check_size` accepts exactly an integer type, the empty
tuple type, or a uniform tuple of integers, and rejects every other size
type at typing (validation) time — before any allocation or bit-generator
draw; values, and in particular signs, are invisible to this validation. -/
theorem checkSize_characterization (t : NBType) :
    checkSize t = true ↔
      (t = .integerT ∨ t = .tupleT [] ∨ ∃ n, t = .uniTupleT .integerT n) := by
  cases t with
  | integerT => simp [checkSize]
  | booleanT => simp [checkSize]
  | floatT => simp [checkSize]
  | otherT => simp [checkSize]
  | tupleT elts =>
    cases elts with
    | nil => simp [checkSize]
    | cons a l => simp [checkSize]
  | uniTupleT dtype count =>
    cases dtype with
    | integerT =>
      simp only [checkSize, true_iff]
      exact Or.inr (Or.inr ⟨count, rfl⟩)
    | booleanT => simp [checkSize]
    | floatT => simp [checkSize]
    | otherT => simp [checkSize]
    | tupleT elts => simp [checkSize]
    | uniTupleT d2 c2 => simp [checkSize]

end NumbaRandom
